import Mathlib

/-!
Verification of the LEGO-guide AI server core (image tiling, shape catalog,
step chunking, analysis cache), shallowly embedded from the Python sources:

* `app/image_analysis.py`   — greedy tiling engine and shape candidates
* `app/domain/brick_catalog.py` — catalog normalization
* `app/services/analysis_store.py` — TTL analysis cache
* `app/services/step_generator.py` — row-based step chunking
* `app/routers/guide.py`    — sectioning and build-step assembly

Machine strings are `String`; character-level helpers mirror Python's
`str.strip`/`str.lower`.  Grids are total functions `Nat → Nat → C` together
with explicit width/height, mirroring the rectangular `List[List[str]]`
produced by the image stage (out of scope here, per the spec).
-/

namespace LdaAi

/-! ### Character-level string helpers (Python `str.strip` / `str.lower`) -/

/-- Python `str.strip()`: drop whitespace from both ends. -/
def strTrim (s : String) : String :=
  ⟨((s.data.dropWhile Char.isWhitespace).reverse.dropWhile Char.isWhitespace).reverse⟩

/-- Python `str.lower()`: lowercase every character. -/
def strLower (s : String) : String :=
  ⟨s.data.map Char.toLower⟩

/-- Decimal digits to a number, `int("...")` on an all-digit string. -/
def digitsToNat (l : List Char) : Nat :=
  l.foldl (fun n c => n * 10 + (c.toNat - ('0').toNat)) 0

/-- Python f-string `f"{w}x{h}"`. -/
def dimsKey (w h : Nat) : String :=
  toString w ++ "x" ++ toString h

/-! ### `image_analysis.parse_brick_type_dims`

The Python function matches the regex `^(\d+)x(\d+)$` against the trimmed,
lowercased input; on a match it clamps both groups to `1..64`, otherwise it
returns `(1, 1)`.  A match of that regex is exactly: a nonempty all-digit
prefix, one `'x'`, and a nonempty all-digit suffix (digits are never `'x'`,
so the first `'x'` splits the groups). -/

/-- Regex body of `parse_brick_type_dims` on the trimmed, lowercased chars. -/
def parseCore (s : List Char) : Nat × Nat :=
  match s.dropWhile (fun c => c ≠ 'x') with
  | 'x' :: suf =>
    if s.takeWhile (fun c => c ≠ 'x') ≠ [] ∧ suf ≠ [] ∧
        (s.takeWhile (fun c => c ≠ 'x')).all Char.isDigit ∧ suf.all Char.isDigit then
      (max 1 (min 64 (digitsToNat (s.takeWhile (fun c => c ≠ 'x')))),
       max 1 (min 64 (digitsToNat suf)))
    else (1, 1)
  | _ => (1, 1)

def parse_brick_type_dims (brick_type : String) : Nat × Nat :=
  if brick_type = "" then (1, 1)
  else parseCore (strLower (strTrim brick_type)).data

theorem parse_brick_type_dims_pos (s : String) :
    1 ≤ (parse_brick_type_dims s).1 ∧ 1 ≤ (parse_brick_type_dims s).2 := by
  unfold parse_brick_type_dims parseCore
  split
  · exact ⟨Nat.le_refl 1, Nat.le_refl 1⟩
  · split
    · split
      · exact ⟨Nat.le_max_left _ _, Nat.le_max_left _ _⟩
      · exact ⟨Nat.le_refl 1, Nat.le_refl 1⟩
    · exact ⟨Nat.le_refl 1, Nat.le_refl 1⟩

/-! ### `image_analysis.normalize_brick_types`

Python keeps a `cleaned` list plus a `seen` set of the keys appended to
`cleaned`; since exactly the appended keys are in `seen`, membership in
`cleaned` models `seen`. Non-string entries (skipped by Python) cannot occur
here, the input being `List String`. -/

def normalizeLoop : List String → List String → List String
  | cleaned, [] => cleaned
  | cleaned, x :: rest =>
    let s := strLower (strTrim x)
    if s = "" then normalizeLoop cleaned rest
    else
      let d := parse_brick_type_dims s
      let key := dimsKey d.1 d.2
      if key ∈ cleaned then normalizeLoop cleaned rest
      else normalizeLoop (cleaned ++ [key]) rest

def normalize_brick_types (brick_types : List String) : List String :=
  if brick_types = [] then ["1x1"]
  else
    let cleaned := normalizeLoop [] brick_types
    if "1x1" ∈ cleaned then cleaned else cleaned ++ ["1x1"]

/-! ### `image_analysis.build_candidates`

A candidate is the Python quadruple `(type_str, w, h, area)`. The Python
`seen` set holds exactly the `(w, h)` pairs of the quadruples appended to
`out`, so it is modelled by a dimension scan of the accumulator. -/

structure Cand where
  type : String
  w : Nat
  h : Nat
  area : Nat
deriving DecidableEq, Repr

/-- Append the candidate `(f"{w}x{h}", w, h, w*h)` unless its `(w, h)` pair
was already seen (i.e. occurs among the accumulated candidates). -/
def candAppend (out : List Cand) (w h : Nat) : List Cand :=
  if out.any (fun c => c.w = w ∧ c.h = h) then out
  else out ++ [⟨dimsKey w h, w, h, w * h⟩]

def buildCandLoop (allow_rotate : Bool) : List Cand → List String → List Cand
  | out, [] => out
  | out, t :: rest =>
    let w := (parse_brick_type_dims t).1
    let h := (parse_brick_type_dims t).2
    buildCandLoop allow_rotate
      (if allow_rotate ∧ w ≠ h then candAppend (candAppend out w h) h w
       else candAppend out w h) rest

/-- Sort key of `out.sort(key=lambda x: (x[3], x[1], x[2]), reverse=True)`. -/
def candKey (c : Cand) : Nat × Nat × Nat := (c.area, c.w, c.h)

/-- Lexicographic order on the Python sort key triples. -/
def tripLe (p q : Nat × Nat × Nat) : Prop :=
  p.1 < q.1 ∨ (p.1 = q.1 ∧ (p.2.1 < q.2.1 ∨ (p.2.1 = q.2.1 ∧ p.2.2 ≤ q.2.2)))

/-- `a` may precede `b` in the reverse-sorted output: key of `a` ≥ key of `b`. -/
def candGe (a b : Cand) : Prop := tripLe (candKey b) (candKey a)

instance : DecidableRel tripLe := fun _ _ => by
  unfold tripLe; exact inferInstance

instance : DecidableRel candGe := fun _ _ => by
  unfold candGe; exact inferInstance

instance : IsTotal Cand candGe := by
  constructor
  intro a b
  unfold candGe tripLe
  omega

instance : IsTrans Cand candGe := by
  constructor
  intro a b c hab hbc
  unfold candGe tripLe at *
  omega

/-- `build_candidates`: dedup pass, then Python's stable descending sort on
`(area, w, h)`.  The deduplicated list has pairwise distinct `(w, h)` and
hence pairwise distinct sort keys (proved below), so every correct sort —
Python's stable `list.sort(reverse=True)` and `insertionSort` alike —
produces the unique descending arrangement. -/
def build_candidates (brick_types : List String) (allow_rotate : Bool) : List Cand :=
  List.insertionSort candGe (buildCandLoop allow_rotate [] brick_types)

/-! ### The greedy tiling loop of `image_analysis.analyze_image_to_guide`

The color grid is the rectangular `colors_grid : List[List[str]]` built from
the resized image, modelled as a total function `Nat → Nat → C` over an
opaque color type plus explicit width `W` and height `H` (the image decoding
itself is the external collaborator of the spec).  The occupancy mask `occ`
is likewise a function updated by `place`.  A `Brick` appended by the loop
records only `(x, y, color, type, groupId)` in Python; its rectangle is
`parse_brick_type_dims(type)` of the candidate that was placed, so the
embedding records those dimensions directly alongside. -/

structure Placement (C : Type) where
  x : Nat
  y : Nat
  w : Nat
  h : Nat
  color : C
  type : String
  groupId : Nat
deriving DecidableEq, Repr

/-- The cell `(a, b)` lies in the rectangle of placement `p`. -/
def coversCell {C : Type} (p : Placement C) (a b : Nat) : Prop :=
  p.x ≤ a ∧ a < p.x + p.w ∧ p.y ≤ b ∧ b < p.y + p.h

instance {C : Type} (p : Placement C) (a b : Nat) : Decidable (coversCell p a b) := by
  unfold coversCell; exact inferInstance

/-- `image_analysis.can_place`. -/
def can_place {C : Type} [DecidableEq C] (colors : Nat → Nat → C) (W H : Nat)
    (occ : Nat → Nat → Bool) (x y bw bh : Nat) (target : C) : Bool :=
  if W < x + bw ∨ H < y + bh then false
  else
    (List.range bh).all fun dy =>
      (List.range bw).all fun dx =>
        decide (occ (x + dx) (y + dy) = false ∧ colors (x + dx) (y + dy) = target)

/-- `image_analysis.place`: mark the rectangle occupied. -/
def place (occ : Nat → Nat → Bool) (x y bw bh : Nat) : Nat → Nat → Bool :=
  fun a b =>
    if x ≤ a ∧ a < x + bw ∧ y ≤ b ∧ b < y + bh then true else occ a b

structure TileState (C : Type) where
  occ : Nat → Nat → Bool
  bricks : List (Placement C)

/-- One iteration of the inner tiling loop body at cell `(x, y)`:
skip if occupied, otherwise place the first candidate that fits, falling
back to a `1x1` brick when no candidate fits. -/
def tileCell {C : Type} [DecidableEq C] (colors : Nat → Nat → C) (W H : Nat)
    (cands : List Cand) (st : TileState C) (pos : Nat × Nat) : TileState C :=
  if st.occ pos.1 pos.2 then st
  else
    match cands.find? (fun c =>
        can_place colors W H st.occ pos.1 pos.2 c.w c.h (colors pos.1 pos.2)) with
    | some c =>
      ⟨place st.occ pos.1 pos.2 c.w c.h,
       st.bricks ++ [⟨pos.1, pos.2, c.w, c.h, colors pos.1 pos.2, c.type, pos.2 + 1⟩]⟩
    | none =>
      ⟨place st.occ pos.1 pos.2 1 1,
       st.bricks ++ [⟨pos.1, pos.2, 1, 1, colors pos.1 pos.2, "1x1", pos.2 + 1⟩]⟩

/-- Row-major scan order: `for y in range(h): for x in range(w)`. -/
def cellsRowMajor (W H : Nat) : List (Nat × Nat) :=
  (List.range H).flatMap fun y => (List.range W).map fun x => (x, y)

/-- The whole greedy tiling pass (step 4 of `analyze_image_to_guide`). -/
def tiling {C : Type} [DecidableEq C] (colors : Nat → Nat → C) (W H : Nat)
    (cands : List Cand) : TileState C :=
  (cellsRowMajor W H).foldl (tileCell colors W H cands) ⟨fun _ _ => false, []⟩

/-- Bricks emitted by `analyze_image_to_guide` for a given color grid,
requested brick types and rotate flag (the image-to-grid stage being the
external collaborator). -/
def analyzeBricks {C : Type} [DecidableEq C] (colors : Nat → Nat → C) (W H : Nat)
    (brick_types : List String) (allow_rotate : Bool) : List (Placement C) :=
  (tiling colors W H (build_candidates (normalize_brick_types brick_types) allow_rotate)).bricks

/-! ### Soundness of `can_place` and `place` -/

section Tiling

variable {C : Type} [DecidableEq C]

theorem can_place_sound {colors : Nat → Nat → C} {W H : Nat}
    {occ : Nat → Nat → Bool} {x y bw bh : Nat} {target : C}
    (h : can_place colors W H occ x y bw bh target = true) :
    x + bw ≤ W ∧ y + bh ≤ H ∧
      ∀ a b, x ≤ a → a < x + bw → y ≤ b → b < y + bh →
        occ a b = false ∧ colors a b = target := by
  unfold can_place at h
  split at h
  · exact absurd h (by simp)
  · rename_i hb
    push_neg at hb
    refine ⟨hb.1, hb.2, ?_⟩
    intro a b hxa hax hyb hby
    rw [List.all_eq_true] at h
    have h2 := h (b - y) (List.mem_range.mpr (by omega))
    rw [List.all_eq_true] at h2
    have h3 := h2 (a - x) (List.mem_range.mpr (by omega))
    rw [decide_eq_true_eq] at h3
    have hxe : x + (a - x) = a := by omega
    have hye : y + (b - y) = b := by omega
    rw [hxe, hye] at h3
    exact h3

theorem place_spec (occ : Nat → Nat → Bool) (x y bw bh a b : Nat) :
    place occ x y bw bh a b = true ↔
      (x ≤ a ∧ a < x + bw ∧ y ≤ b ∧ b < y + bh) ∨ occ a b = true := by
  unfold place
  split
  · simp_all
  · simp_all

/-! ### The tiling invariant -/

/-- Two placements' rectangles share no cell. -/
def RectDisj (p q : Placement C) : Prop :=
  ∀ a b, ¬(coversCell p a b ∧ coversCell q a b)

/-- Invariant of the greedy scan: placements are in bounds, have positive
dimensions, are color-homogeneous, the occupancy mask is exactly the union
of their rectangles, and the rectangles are pairwise disjoint. -/
structure TileInv (colors : Nat → Nat → C) (W H : Nat) (st : TileState C) : Prop where
  bounds : ∀ p ∈ st.bricks, p.x + p.w ≤ W ∧ p.y + p.h ≤ H
  posdim : ∀ p ∈ st.bricks, 1 ≤ p.w ∧ 1 ≤ p.h
  homog : ∀ p ∈ st.bricks, ∀ a b, coversCell p a b → colors a b = p.color
  occ_iff : ∀ a b, st.occ a b = true ↔ ∃ p ∈ st.bricks, coversCell p a b
  disj : st.bricks.Pairwise RectDisj

/-- Candidate lists fed to the loop always have positive dimensions. -/
def CandsPos (cands : List Cand) : Prop :=
  ∀ c ∈ cands, 1 ≤ c.w ∧ 1 ≤ c.h

/-- Appending a fresh placement whose rectangle is in bounds, has positive
dimensions, is color-homogeneous and currently free preserves the invariant. -/
theorem TileInv.extend {colors : Nat → Nat → C} {W H : Nat} {st : TileState C}
    (hinv : TileInv colors W H st) (p' : Placement C)
    (hbW : p'.x + p'.w ≤ W) (hbH : p'.y + p'.h ≤ H)
    (hw : 1 ≤ p'.w) (hh : 1 ≤ p'.h)
    (hcol : ∀ a b, coversCell p' a b → colors a b = p'.color)
    (hfree : ∀ a b, coversCell p' a b → st.occ a b = false) :
    TileInv colors W H ⟨place st.occ p'.x p'.y p'.w p'.h, st.bricks ++ [p']⟩ := by
  have hnotold : ∀ p ∈ st.bricks, RectDisj p p' := by
    intro p hp a b hab
    have hocc : st.occ a b = true := (hinv.occ_iff a b).mpr ⟨p, hp, hab.1⟩
    rw [hfree a b hab.2] at hocc
    exact absurd hocc (by simp)
  have hcov : ∀ a b, coversCell p' a b ↔
      (p'.x ≤ a ∧ a < p'.x + p'.w ∧ p'.y ≤ b ∧ b < p'.y + p'.h) := fun a b => Iff.rfl
  refine ⟨?_, ?_, ?_, ?_, ?_⟩
  · intro p hp
    rcases List.mem_append.mp hp with h | h
    · exact hinv.bounds p h
    · rcases List.mem_singleton.mp h with rfl
      exact ⟨hbW, hbH⟩
  · intro p hp
    rcases List.mem_append.mp hp with h | h
    · exact hinv.posdim p h
    · rcases List.mem_singleton.mp h with rfl
      exact ⟨hw, hh⟩
  · intro p hp a b hcv
    rcases List.mem_append.mp hp with h | h
    · exact hinv.homog p h a b hcv
    · rcases List.mem_singleton.mp h with rfl
      exact hcol a b hcv
  · intro a b
    simp only [place_spec, hinv.occ_iff]
    constructor
    · rintro (h | ⟨p, hp, hpc⟩)
      · exact ⟨p', List.mem_append.mpr (Or.inr (List.mem_singleton.mpr rfl)),
          (hcov a b).mpr h⟩
      · exact ⟨p, List.mem_append.mpr (Or.inl hp), hpc⟩
    · rintro ⟨p, hp, hpc⟩
      rcases List.mem_append.mp hp with h | h
      · exact Or.inr ⟨p, h, hpc⟩
      · rcases List.mem_singleton.mp h with rfl
        exact Or.inl ((hcov a b).mp hpc)
  · rw [List.pairwise_append]
    exact ⟨hinv.disj, List.pairwise_singleton _ _,
      fun p hp q hq => by rcases List.mem_singleton.mp hq with rfl; exact hnotold p hp⟩

theorem tileCell_inv {colors : Nat → Nat → C} {W H : Nat} {cands : List Cand}
    (hc : CandsPos cands) {st : TileState C} (hinv : TileInv colors W H st)
    {pos : Nat × Nat} (hx : pos.1 < W) (hy : pos.2 < H) :
    TileInv colors W H (tileCell colors W H cands st pos) ∧
      (∀ a b, st.occ a b = true → (tileCell colors W H cands st pos).occ a b = true) ∧
      (tileCell colors W H cands st pos).occ pos.1 pos.2 = true := by
  unfold tileCell
  split
  · rename_i hocc
    exact ⟨hinv, fun a b h => h, hocc⟩
  · rename_i hfree
    have hfree' : st.occ pos.1 pos.2 = false := by
      revert hfree; cases st.occ pos.1 pos.2 <;> simp
    split
    · -- a candidate was found and placed
      rename_i c hfind
      have hcp : can_place colors W H st.occ pos.1 pos.2 c.w c.h (colors pos.1 pos.2) = true := by
        have h := List.find?_some hfind
        simpa using h
      have hmem : c ∈ cands := List.mem_of_find?_eq_some hfind
      have hdim := hc c hmem
      obtain ⟨hbW, hbH, hcells⟩ := can_place_sound hcp
      refine ⟨TileInv.extend hinv
        ⟨pos.1, pos.2, c.w, c.h, colors pos.1 pos.2, c.type, pos.2 + 1⟩
        hbW hbH hdim.1 hdim.2 ?_ ?_, ?_, ?_⟩
      · intro a b hcv
        exact (hcells a b hcv.1 hcv.2.1 hcv.2.2.1 hcv.2.2.2).2
      · intro a b hcv
        exact (hcells a b hcv.1 hcv.2.1 hcv.2.2.1 hcv.2.2.2).1
      · intro a b h
        rw [place_spec]; exact Or.inr h
      · rw [place_spec]
        refine Or.inl ⟨Nat.le_refl _, ?_, Nat.le_refl _, ?_⟩
        · have := hdim.1; omega
        · have := hdim.2; omega
    · -- fallback 1x1 placement
      rename_i hfind
      refine ⟨TileInv.extend hinv
        ⟨pos.1, pos.2, 1, 1, colors pos.1 pos.2, "1x1", pos.2 + 1⟩
        (show pos.1 + 1 ≤ W by omega) (show pos.2 + 1 ≤ H by omega)
        (Nat.le_refl _) (Nat.le_refl _) ?_ ?_, ?_, ?_⟩
      · intro a b hcv
        obtain ⟨h1, h2, h3, h4⟩ := hcv
        have h1' : pos.1 ≤ a := h1
        have h2' : a < pos.1 + 1 := h2
        have h3' : pos.2 ≤ b := h3
        have h4' : b < pos.2 + 1 := h4
        have ha : a = pos.1 := by omega
        have hb : b = pos.2 := by omega
        rw [ha, hb]
      · intro a b hcv
        obtain ⟨h1, h2, h3, h4⟩ := hcv
        have h1' : pos.1 ≤ a := h1
        have h2' : a < pos.1 + 1 := h2
        have h3' : pos.2 ≤ b := h3
        have h4' : b < pos.2 + 1 := h4
        have ha : a = pos.1 := by omega
        have hb : b = pos.2 := by omega
        rw [ha, hb, hfree']
      · intro a b h
        rw [place_spec]; exact Or.inr h
      · rw [place_spec]
        exact Or.inl ⟨Nat.le_refl _, by omega, Nat.le_refl _, by omega⟩

theorem tiling_fold_inv {colors : Nat → Nat → C} {W H : Nat} {cands : List Cand}
    (hc : CandsPos cands) :
    ∀ (l : List (Nat × Nat)) (st : TileState C), TileInv colors W H st →
      (∀ q ∈ l, q.1 < W ∧ q.2 < H) →
      TileInv colors W H (l.foldl (tileCell colors W H cands) st) ∧
        (∀ a b, st.occ a b = true →
          (l.foldl (tileCell colors W H cands) st).occ a b = true) ∧
        (∀ q ∈ l, (l.foldl (tileCell colors W H cands) st).occ q.1 q.2 = true) := by
  intro l
  induction l with
  | nil => exact fun st hinv _ => ⟨hinv, fun a b h => h, by simp⟩
  | cons pos rest ih =>
    intro st hinv hin
    have hpos := hin pos (List.mem_cons_self _ _)
    obtain ⟨hinv1, hmono1, hocc1⟩ := tileCell_inv hc hinv hpos.1 hpos.2
    have hrest : ∀ q ∈ rest, q.1 < W ∧ q.2 < H :=
      fun q hq => hin q (List.mem_cons_of_mem _ hq)
    obtain ⟨hinv2, hmono2, hocc2⟩ := ih (tileCell colors W H cands st pos) hinv1 hrest
    refine ⟨hinv2, fun a b h => hmono2 a b (hmono1 a b h), ?_⟩
    intro q hq
    rcases List.mem_cons.mp hq with rfl | h
    · exact hmono2 q.1 q.2 hocc1
    · exact hocc2 q h

theorem mem_cellsRowMajor {W H : Nat} {q : Nat × Nat} :
    q ∈ cellsRowMajor W H ↔ q.1 < W ∧ q.2 < H := by
  unfold cellsRowMajor
  simp only [List.mem_flatMap, List.mem_map, List.mem_range]
  constructor
  · rintro ⟨y, hy, x, hx, rfl⟩; exact ⟨hx, hy⟩
  · rintro ⟨hx, hy⟩; exact ⟨q.2, hy, q.1, hx, rfl⟩

/-- Outcome of the whole tiling pass: the invariant holds and every in-grid
cell is occupied. -/
theorem tiling_complete (colors : Nat → Nat → C) (W H : Nat) {cands : List Cand}
    (hc : CandsPos cands) :
    TileInv colors W H (tiling colors W H cands) ∧
      ∀ a b, a < W → b < H → (tiling colors W H cands).occ a b = true := by
  have hinit : TileInv colors W H (⟨fun _ _ => false, []⟩ : TileState C) := by
    refine ⟨by simp, by simp, by simp, ?_, by simp⟩
    intro a b; simp
  have hin : ∀ q ∈ cellsRowMajor W H, q.1 < W ∧ q.2 < H :=
    fun q hq => mem_cellsRowMajor.mp hq
  obtain ⟨hinv, _, hall⟩ := tiling_fold_inv hc (cellsRowMajor W H) _ hinit hin
  exact ⟨hinv, fun a b ha hb => hall (a, b) (mem_cellsRowMajor.mpr ⟨ha, hb⟩)⟩

end Tiling

/-! ### Candidate dimensions are positive -/

theorem candAppend_mem {out : List Cand} {w h : Nat} {c : Cand}
    (hc : c ∈ candAppend out w h) : c ∈ out ∨ c = ⟨dimsKey w h, w, h, w * h⟩ := by
  unfold candAppend at hc
  split at hc
  · exact Or.inl hc
  · rcases List.mem_append.mp hc with h' | h'
    · exact Or.inl h'
    · exact Or.inr (List.mem_singleton.mp h')

theorem buildCandLoop_pos (rot : Bool) :
    ∀ (l : List String) (acc : List Cand), (∀ c ∈ acc, 1 ≤ c.w ∧ 1 ≤ c.h) →
      ∀ c ∈ buildCandLoop rot acc l, 1 ≤ c.w ∧ 1 ≤ c.h := by
  intro l
  induction l with
  | nil =>
    intro acc hacc c hc
    rw [buildCandLoop] at hc
    exact hacc c hc
  | cons t rest ih =>
    intro acc hacc c hc
    rw [buildCandLoop] at hc
    refine ih _ ?_ c hc
    have hparse := parse_brick_type_dims_pos t
    have hstep1 : ∀ c' ∈ candAppend acc (parse_brick_type_dims t).1
        (parse_brick_type_dims t).2, 1 ≤ c'.w ∧ 1 ≤ c'.h := by
      intro c' hc'
      rcases candAppend_mem hc' with h' | h'
      · exact hacc c' h'
      · rw [h']; exact hparse
    intro c' hc'
    split at hc'
    · rcases candAppend_mem hc' with h' | h'
      · exact hstep1 c' h'
      · rw [h']; exact ⟨hparse.2, hparse.1⟩
    · exact hstep1 c' hc'

theorem build_candidates_pos (brick_types : List String) (allow_rotate : Bool) :
    CandsPos (build_candidates brick_types allow_rotate) := by
  intro c hc
  unfold build_candidates at hc
  have hmem : c ∈ buildCandLoop allow_rotate [] brick_types :=
    (List.perm_insertionSort candGe _).mem_iff.mp hc
  exact buildCandLoop_pos allow_rotate brick_types [] (by simp) c hmem

/-! ### Exactly-once coverage and the area count -/

theorem countP_eq_one_of_pairwise_not {α : Type} {l : List α} {P : α → Prop}
    [DecidablePred P] (hd : l.Pairwise fun p q => ¬(P p ∧ P q))
    (hex : ∃ p ∈ l, P p) : l.countP (fun p => decide (P p)) = 1 := by
  induction l with
  | nil => obtain ⟨p, hp, _⟩ := hex; exact absurd hp (List.not_mem_nil p)
  | cons a t ih =>
    rw [List.pairwise_cons] at hd
    rw [List.countP_cons]
    by_cases ha : P a
    · have hz : t.countP (fun p => decide (P p)) = 0 := by
        rw [List.countP_eq_zero]
        intro q hq
        have := hd.1 q hq
        simpa [ha] using this
      simp [ha, hz]
    · simp only [show decide (P a) = false by simpa using ha, if_false, Nat.add_zero]
      apply ih hd.2
      obtain ⟨p, hp, hP⟩ := hex
      rcases List.mem_cons.mp hp with rfl | h
      · exact absurd hP ha
      · exact ⟨p, h, hP⟩

/-- The set of cells of a placement's rectangle. -/
def cellsFinset {C : Type} (p : Placement C) : Finset (Nat × Nat) :=
  Finset.Ico p.x (p.x + p.w) ×ˢ Finset.Ico p.y (p.y + p.h)

theorem mem_cellsFinset {C : Type} {p : Placement C} {z : Nat × Nat} :
    z ∈ cellsFinset p ↔ coversCell p z.1 z.2 := by
  unfold cellsFinset coversCell
  rw [Finset.mem_product, Finset.mem_Ico, Finset.mem_Ico]
  tauto

theorem card_cellsFinset {C : Type} (p : Placement C) :
    (cellsFinset p).card = p.w * p.h := by
  unfold cellsFinset
  rw [Finset.card_product, Nat.card_Ico, Nat.card_Ico,
    Nat.add_sub_cancel_left, Nat.add_sub_cancel_left]

/-- Union of the cell sets of a list of placements. -/
def unionCells {C : Type} (l : List (Placement C)) : Finset (Nat × Nat) :=
  l.foldr (fun p acc => cellsFinset p ∪ acc) ∅

theorem mem_unionCells {C : Type} {l : List (Placement C)} {z : Nat × Nat} :
    z ∈ unionCells l ↔ ∃ p ∈ l, coversCell p z.1 z.2 := by
  induction l with
  | nil => simp [unionCells]
  | cons p t ih =>
    unfold unionCells at *
    rw [List.foldr_cons, Finset.mem_union, ih, mem_cellsFinset]
    constructor
    · rintro (h | ⟨q, hq, hqc⟩)
      · exact ⟨p, List.mem_cons_self _ _, h⟩
      · exact ⟨q, List.mem_cons_of_mem _ hq, hqc⟩
    · rintro ⟨q, hq, hqc⟩
      rcases List.mem_cons.mp hq with rfl | h
      · exact Or.inl hqc
      · exact Or.inr ⟨q, h, hqc⟩

theorem card_unionCells {C : Type} {l : List (Placement C)}
    (hd : l.Pairwise RectDisj) :
    (unionCells l).card = (l.map fun p => p.w * p.h).sum := by
  induction l with
  | nil => simp [unionCells]
  | cons p t ih =>
    rw [List.pairwise_cons] at hd
    have hdisj : Disjoint (cellsFinset p) (unionCells t) := by
      rw [Finset.disjoint_left]
      intro z hz hz'
      obtain ⟨q, hq, hqc⟩ := mem_unionCells.mp hz'
      exact hd.1 q hq z.1 z.2 ⟨mem_cellsFinset.mp hz, hqc⟩
    have hstep : unionCells (p :: t) = cellsFinset p ∪ unionCells t := rfl
    rw [hstep, Finset.card_union_of_disjoint hdisj, card_cellsFinset,
      List.map_cons, List.sum_cons, ih hd.2]

/-- The cells of the `W × H` grid. -/
def gridCells (W H : Nat) : Finset (Nat × Nat) :=
  Finset.range W ×ˢ Finset.range H

theorem unionCells_eq_gridCells {C : Type} [DecidableEq C]
    (colors : Nat → Nat → C) (W H : Nat) {cands : List Cand}
    (hc : CandsPos cands) :
    unionCells (tiling colors W H cands).bricks = gridCells W H := by
  obtain ⟨hinv, hall⟩ := tiling_complete colors W H hc
  apply Finset.ext
  intro z
  rw [mem_unionCells]
  unfold gridCells
  rw [Finset.mem_product, Finset.mem_range, Finset.mem_range]
  constructor
  · rintro ⟨p, hp, hpc⟩
    have hb := hinv.bounds p hp
    obtain ⟨h1, h2, h3, h4⟩ := hpc
    exact ⟨by omega, by omega⟩
  · rintro ⟨hzw, hzh⟩
    have hocc := hall z.1 z.2 hzw hzh
    exact (hinv.occ_iff z.1 z.2).mp hocc

/-- C1.  For every color grid, requested shapes and rotate flag, the bricks
emitted by the greedy tiling loop of `analyze_image_to_guide` form a
partition of the grid: each rectangle lies within bounds and is
color-homogeneous, the rectangles are pairwise disjoint, every grid cell is
covered by exactly one placement, and the areas sum to `W * H`. -/
theorem analyze_tiling_partition {C : Type} [DecidableEq C]
    (colors : Nat → Nat → C) (W H : Nat)
    (brick_types : List String) (allow_rotate : Bool) :
    (∀ p ∈ analyzeBricks colors W H brick_types allow_rotate,
        p.x + p.w ≤ W ∧ p.y + p.h ≤ H) ∧
    (∀ p ∈ analyzeBricks colors W H brick_types allow_rotate,
        ∀ a b, coversCell p a b → colors a b = p.color) ∧
    (analyzeBricks colors W H brick_types allow_rotate).Pairwise RectDisj ∧
    (∀ a b, a < W → b < H →
        (analyzeBricks colors W H brick_types allow_rotate).countP
          (fun p => decide (coversCell p a b)) = 1) ∧
    ((analyzeBricks colors W H brick_types allow_rotate).map
        fun p => p.w * p.h).sum = W * H := by
  have hc : CandsPos (build_candidates (normalize_brick_types brick_types) allow_rotate) :=
    build_candidates_pos _ _
  obtain ⟨hinv, hall⟩ := tiling_complete colors W H hc (C := C)
  refine ⟨hinv.bounds, hinv.homog, hinv.disj, ?_, ?_⟩
  · intro a b ha hb
    apply countP_eq_one_of_pairwise_not
    · exact List.Pairwise.imp (fun h => h a b) hinv.disj
    · exact (hinv.occ_iff a b).mp (hall a b ha hb)
  · have hgrid := unionCells_eq_gridCells colors W H hc
    have hcard := card_unionCells hinv.disj
    rw [hgrid] at hcard
    unfold gridCells at hcard
    rw [Finset.card_product, Finset.card_range, Finset.card_range] at hcard
    exact hcard.symm

/-! ### Concrete scenario A (4×4 single color, shapes `{1x1, 2x2}`, rotate) -/

/-- C8.  On a 4×4 grid where every cell has the same color, with requested
shapes `{1x1, 2x2}` and rotation allowed, the tiling loop emits exactly the
four `2x2` placements at `(0,0)`, `(2,0)`, `(0,2)`, `(2,2)` — four bricks of
shape `2x2` and none of shape `1x1`. -/
theorem analyze_4x4_single_color :
    ((analyzeBricks (fun _ _ => "#FFFFFF") 4 4 ["1x1", "2x2"] true).map
        fun p => (p.x, p.y, p.w, p.h, p.type)) =
      [(0, 0, 2, 2, "2x2"), (2, 0, 2, 2, "2x2"),
       (0, 2, 2, 2, "2x2"), (2, 2, 2, 2, "2x2")] ∧
    (analyzeBricks (fun _ _ => "#FFFFFF") 4 4 ["1x1", "2x2"] true).countP
        (fun p => p.type == "2x2") = 4 ∧
    (analyzeBricks (fun _ _ => "#FFFFFF") 4 4 ["1x1", "2x2"] true).countP
        (fun p => p.type == "1x1") = 0 := by
  refine ⟨?_, ?_, ?_⟩ <;> decide

/-! ### Candidate ordering (spec comparison for the catalog contract)

The spec's stated candidate order is "area descending, ties broken by the
larger linear dimension descending, remaining ties by first-insertion order
(stable)".  `spec_build_candidates` is modelled from those words (stable
sort on the key `(area, max w h)` descending), to be compared with
`build_candidates`, whose Python sort key is `(area, w, h)` reverse. -/

/-- Spec-side comparator: `a` may precede `b` when `b.area < a.area`, or
areas tie and `max b.w b.h ≤ max a.w a.h`; a stable sort under this
comparator breaks full ties by first-insertion order. -/
def specCandGe (a b : Cand) : Prop :=
  b.area < a.area ∨ (b.area = a.area ∧ max b.w b.h ≤ max a.w a.h)

instance : DecidableRel specCandGe := fun _ _ => by
  unfold specCandGe; exact inferInstance

/-- Modelled from the spec: the candidate list ordered by area descending,
then larger linear dimension descending, then first-insertion order. -/
def spec_build_candidates (brick_types : List String) (allow_rotate : Bool) : List Cand :=
  List.insertionSort specCandGe (buildCandLoop allow_rotate [] brick_types)

/-- C3, counterexample.  For the request `["1x4"]` with rotation, the code
yields `[4x1, 1x4]` (key `(4,4,1)` before `(4,1,4)`), while the spec's
ordering — equal area 4, equal larger dimension 4, first-insertion order —
demands `[1x4, 4x1]`: the claimed tie-break does not describe
`build_candidates`. -/
theorem build_candidates_order_cex :
    build_candidates ["1x4"] true = [⟨"4x1", 4, 1, 4⟩, ⟨"1x4", 1, 4, 4⟩] ∧
    spec_build_candidates ["1x4"] true = [⟨"1x4", 1, 4, 4⟩, ⟨"4x1", 4, 1, 4⟩] ∧
    build_candidates ["1x4"] true ≠ spec_build_candidates ["1x4"] true := by
  refine ⟨?_, ?_, ?_⟩ <;> decide

/-- Two candidates differing in their `(w, h)` pair. -/
def DimsNe (a b : Cand) : Prop := ¬(a.w = b.w ∧ a.h = b.h)

theorem candAppend_pairwise {out : List Cand} {w h : Nat}
    (hp : out.Pairwise DimsNe) : (candAppend out w h).Pairwise DimsNe := by
  unfold candAppend
  split
  · exact hp
  · rename_i hany
    rw [List.pairwise_append]
    refine ⟨hp, List.pairwise_singleton _ _, ?_⟩
    intro p hpmem q hq
    rcases List.mem_singleton.mp hq with rfl
    intro hcon
    exact hany (List.any_eq_true.mpr ⟨p, hpmem, by simpa using hcon⟩)

theorem buildCandLoop_pairwise (rot : Bool) :
    ∀ (l : List String) (acc : List Cand), acc.Pairwise DimsNe →
      (buildCandLoop rot acc l).Pairwise DimsNe := by
  intro l
  induction l with
  | nil =>
    intro acc hacc
    rw [buildCandLoop]
    exact hacc
  | cons t rest ih =>
    intro acc hacc
    rw [buildCandLoop]
    apply ih
    split
    · exact candAppend_pairwise (candAppend_pairwise hacc)
    · exact candAppend_pairwise hacc

/-- Strict lexicographic descent on the Python sort key. -/
def tripLt (p q : Nat × Nat × Nat) : Prop := tripLe p q ∧ p ≠ q

/-- C3, amended.  `build_candidates` is a permutation of the first-insertion
deduplicated candidate list, its `(w, h)` pairs are pairwise distinct, and it
is strictly descending in the key `(area, w, h)` (lexicographic): ties on
area alone are broken by width descending, then height descending — not by
the larger linear dimension.  Full-key ties cannot arise after
deduplication, so stability (first-insertion order) is vacuous. -/
theorem build_candidates_sorted (brick_types : List String) (allow_rotate : Bool) :
    (build_candidates brick_types allow_rotate).Perm
      (buildCandLoop allow_rotate [] brick_types) ∧
    (build_candidates brick_types allow_rotate).Pairwise DimsNe ∧
    (build_candidates brick_types allow_rotate).Pairwise
      (fun a b => tripLt (candKey b) (candKey a)) := by
  have hperm : (build_candidates brick_types allow_rotate).Perm
      (buildCandLoop allow_rotate [] brick_types) :=
    List.perm_insertionSort candGe _
  have hdims : (build_candidates brick_types allow_rotate).Pairwise DimsNe := by
    have hsym : ∀ {x y : Cand}, DimsNe x y → DimsNe y x :=
      fun hab hcon => hab ⟨hcon.1.symm, hcon.2.symm⟩
    have hbase := buildCandLoop_pairwise allow_rotate brick_types [] List.Pairwise.nil
    exact ((hperm.pairwise_iff hsym).mpr hbase)
  have hsorted : (build_candidates brick_types allow_rotate).Pairwise candGe :=
    List.sorted_insertionSort candGe _
  refine ⟨hperm, hdims, ?_⟩
  have hand := List.Pairwise.and hsorted hdims
  apply hand.imp
  intro a b hab
  refine ⟨hab.1, ?_⟩
  intro hkey
  apply hab.2
  unfold candKey at hkey
  rw [Prod.ext_iff, Prod.ext_iff] at hkey
  exact ⟨Eq.symm hkey.2.1, Eq.symm hkey.2.2⟩

/-! ### `services/analysis_store.py` — the TTL analysis cache

The Python `dict` (insertion-ordered, unique keys) is an association list;
`dict.get` is first-match lookup, assignment updates in place or appends,
`pop` removes the key's binding.  `time.time()` values and TTLs are the
explicit `now`/`ttl_seconds` integer parameters; `uuid4().hex` is the
`analysis_id` parameter handed to `put` (fresh by collision resistance).
Python raises the same `KeyError(analysis_id)` on both failure paths of
`get`, which the embedding keeps as the single error constructor. -/

structure AnalysisRecord (P : Type) where
  payload : P
  expires_at : Int
deriving DecidableEq, Repr

/-- The one exception `AnalysisStore.get` can raise: `KeyError(analysis_id)`. -/
inductive StoreErr where
  | keyError (token : String)
deriving DecidableEq, Repr

/-- `AnalysisStore._cleanup`: drop every entry with `expires_at < now`. -/
def storeCleanup {P : Type} (store : List (String × AnalysisRecord P)) (now : Int) :
    List (String × AnalysisRecord P) :=
  store.filter fun kv => decide (¬(kv.2.expires_at < now))

/-- `dict` assignment `self._store[analysis_id] = record`. -/
def dictSet {P : Type} : List (String × AnalysisRecord P) → String →
    AnalysisRecord P → List (String × AnalysisRecord P)
  | [], k, v => [(k, v)]
  | (k', v') :: rest, k, v =>
    if k' = k then (k, v) :: rest else (k', v') :: dictSet rest k v

/-- `dict.pop(analysis_id, None)`. -/
def dictPop {P : Type} : List (String × AnalysisRecord P) → String →
    List (String × AnalysisRecord P)
  | [], _ => []
  | (k', v') :: rest, k => if k' = k then rest else (k', v') :: dictPop rest k

/-- `AnalysisStore.put`: cleanup, then store the payload under the fresh id
with `expires_at = now + max(60, ttl_seconds)`, returning the id. -/
def storePut {P : Type} (store : List (String × AnalysisRecord P)) (payload : P)
    (ttl_seconds : Int) (now : Int) (analysis_id : String) :
    String × List (String × AnalysisRecord P) :=
  (analysis_id,
   dictSet (storeCleanup store now) analysis_id
     ⟨payload, now + max 60 ttl_seconds⟩)

/-- `AnalysisStore.get`: cleanup, then `KeyError` when the id is absent, and
`KeyError` again (popping the entry) when the found record has expired;
otherwise the stored payload, store unchanged beyond the cleanup. -/
def storeGet {P : Type} (store : List (String × AnalysisRecord P))
    (analysis_id : String) (now : Int) :
    Except StoreErr P × List (String × AnalysisRecord P) :=
  match List.lookup analysis_id (storeCleanup store now) with
  | none => (.error (.keyError analysis_id), storeCleanup store now)
  | some r =>
    if r.expires_at < now then
      (.error (.keyError analysis_id), dictPop (storeCleanup store now) analysis_id)
    else (.ok r.payload, storeCleanup store now)

/-! ### Store lookup lemmas -/

section StoreLemmas

variable {P : Type}

theorem lookup_filter_none {p : String × AnalysisRecord P → Bool}
    {st : List (String × AnalysisRecord P)} {k : String}
    (h : List.lookup k st = none) : List.lookup k (st.filter p) = none := by
  induction st with
  | nil => simp
  | cons kv rest ih =>
    obtain ⟨k', v'⟩ := kv
    by_cases hkk : k = k'
    · subst hkk
      simp [List.lookup_cons] at h
    · simp only [List.lookup_cons, beq_false_of_ne hkk] at h
      rw [List.filter_cons]
      split
      · simp only [List.lookup_cons, beq_false_of_ne hkk]
        exact ih h
      · exact ih h

theorem lookup_filter_keep {p : String × AnalysisRecord P → Bool}
    {st : List (String × AnalysisRecord P)} {k : String} {v : AnalysisRecord P}
    (h : List.lookup k st = some v) (hp : p (k, v) = true) :
    List.lookup k (st.filter p) = some v := by
  induction st with
  | nil => simp at h
  | cons kv rest ih =>
    obtain ⟨k', v'⟩ := kv
    by_cases hkk : k = k'
    · subst hkk
      simp only [List.lookup_cons, beq_self_eq_true] at h
      obtain rfl : v' = v := by simpa using h
      rw [List.filter_cons, if_pos hp]
      simp [List.lookup_cons]
    · simp only [List.lookup_cons, beq_false_of_ne hkk] at h
      rw [List.filter_cons]
      split
      · simp only [List.lookup_cons, beq_false_of_ne hkk]
        exact ih h
      · exact ih h

theorem lookup_none_of_not_mem_keys {st : List (String × AnalysisRecord P)}
    {k : String} (h : k ∉ st.map Prod.fst) : List.lookup k st = none := by
  induction st with
  | nil => simp
  | cons kv rest ih =>
    obtain ⟨k', v'⟩ := kv
    rw [List.map_cons, List.mem_cons] at h
    push_neg at h
    simp only [List.lookup_cons, beq_false_of_ne h.1]
    exact ih h.2

theorem lookup_cleanup_expired {st : List (String × AnalysisRecord P)}
    {k : String} {r : AnalysisRecord P} {now : Int}
    (hnd : (st.map Prod.fst).Nodup) (h : List.lookup k st = some r)
    (hexp : r.expires_at < now) :
    List.lookup k (storeCleanup st now) = none := by
  induction st with
  | nil => simp at h
  | cons kv rest ih =>
    obtain ⟨k', v'⟩ := kv
    rw [List.map_cons, List.nodup_cons] at hnd
    by_cases hkk : k = k'
    · subst hkk
      simp only [List.lookup_cons, beq_self_eq_true] at h
      obtain rfl : v' = r := by simpa using h
      unfold storeCleanup
      rw [List.filter_cons, if_neg (by simpa using hexp)]
      apply lookup_filter_none
      exact lookup_none_of_not_mem_keys hnd.1
    · simp only [List.lookup_cons, beq_false_of_ne hkk] at h
      unfold storeCleanup at *
      rw [List.filter_cons]
      split
      · simp only [List.lookup_cons, beq_false_of_ne hkk]
        exact ih hnd.2 h
      · exact ih hnd.2 h

theorem dictSet_lookup (st : List (String × AnalysisRecord P)) (k : String)
    (v : AnalysisRecord P) : List.lookup k (dictSet st k v) = some v := by
  induction st with
  | nil => simp [dictSet, List.lookup_cons]
  | cons kv rest ih =>
    obtain ⟨k', v'⟩ := kv
    rw [dictSet]
    by_cases hkk : k' = k
    · rw [if_pos hkk]
      simp [List.lookup_cons]
    · rw [if_neg hkk]
      simp only [List.lookup_cons, beq_false_of_ne (Ne.symm hkk)]
      exact ih

end StoreLemmas

/-! ### C2: both `get` failure paths raise the same `KeyError` -/

/-- C2, counterexample.  At `now = 100`, `get "tok"` on an empty store (no
entry) and on a store whose `"tok"` entry expired at `50` fail with the very
same `KeyError "tok"` value: the expired case is not distinguishable by the
caller from the not-found case (and indeed `routers/guide.py` maps both to
one 410 response). -/
theorem analysis_get_error_cex :
    (storeGet ([] : List (String × AnalysisRecord Nat)) "tok" 100).1 =
      .error (.keyError "tok") ∧
    (storeGet [("tok", (⟨7, 50⟩ : AnalysisRecord Nat))] "tok" 100).1 =
      .error (.keyError "tok") ∧
    (storeGet ([] : List (String × AnalysisRecord Nat)) "tok" 100).1 =
      (storeGet [("tok", (⟨7, 50⟩ : AnalysisRecord Nat))] "tok" 100).1 := by
  refine ⟨rfl, rfl, rfl⟩

/-- C2, amended.  `get` fails when no entry exists for the token and when the
entry's expiry has passed (in which case the entry is removed), but both
failures are the one `KeyError(token)` — there is no distinct `Expired`
error distinguishable by the caller. -/
theorem analysis_get_keyerror {P : Type} (store : List (String × AnalysisRecord P))
    (token : String) (now : Int) (hnd : (store.map Prod.fst).Nodup) :
    (List.lookup token store = none →
      storeGet store token now =
        (.error (.keyError token), storeCleanup store now)) ∧
    (∀ r : AnalysisRecord P, List.lookup token store = some r →
      r.expires_at < now →
      (storeGet store token now).1 = .error (.keyError token) ∧
      List.lookup token (storeGet store token now).2 = none) := by
  constructor
  · intro h
    have hclean : List.lookup token (storeCleanup store now) = none :=
      lookup_filter_none h
    unfold storeGet
    simp only [hclean]
  · intro r h hexp
    have hclean : List.lookup token (storeCleanup store now) = none :=
      lookup_cleanup_expired hnd h hexp
    have hres : storeGet store token now =
        (.error (.keyError token), storeCleanup store now) := by
      unfold storeGet
      simp only [hclean]
    rw [hres]
    exact ⟨rfl, hclean⟩

/-- Witness for `analysis_get_keyerror` at a concrete expired entry. -/
theorem analysis_get_keyerror_witness :
    (storeGet [("tok", (⟨7, 50⟩ : AnalysisRecord Nat))] "tok" 100).1 =
      .error (.keyError "tok") ∧
    List.lookup "tok"
      (storeGet [("tok", (⟨7, 50⟩ : AnalysisRecord Nat))] "tok" 100).2 = none :=
  (analysis_get_keyerror [("tok", (⟨7, 50⟩ : AnalysisRecord Nat))] "tok" 100
    (by decide)).2 ⟨7, 50⟩ (by decide) (by decide)

/-! ### C7: `get ∘ put` round trip, non-destructive reads -/

/-- C7.  A payload stored by `put` is returned unchanged by a `get` before
the TTL elapses, and `get` is non-destructive: a second `get` (still before
expiry) on the store left by the first returns the same payload. -/
theorem analysis_put_get_roundtrip {P : Type}
    (store : List (String × AnalysisRecord P)) (payload : P)
    (ttl now : Int) (id : String) (t1 t2 : Int)
    (h12 : t1 ≤ t2) (h2 : t2 < now + ttl) :
    (storeGet (storePut store payload ttl now id).2 id t1).1 = .ok payload ∧
    (storeGet (storeGet (storePut store payload ttl now id).2 id t1).2 id t2).1 =
      .ok payload := by
  have hmax : ttl ≤ max 60 ttl := le_max_right 60 ttl
  have hlk1 : List.lookup id (storePut store payload ttl now id).2 =
      some ⟨payload, now + max 60 ttl⟩ := by
    unfold storePut
    exact dictSet_lookup _ _ _
  have hkeep1 : List.lookup id
      (storeCleanup (storePut store payload ttl now id).2 t1) =
      some ⟨payload, now + max 60 ttl⟩ := by
    apply lookup_filter_keep hlk1
    simp only [decide_eq_true_eq]
    show ¬(now + max 60 ttl < t1)
    omega
  have hne1 : ¬((⟨payload, now + max 60 ttl⟩ : AnalysisRecord P).expires_at < t1) := by
    show ¬(now + max 60 ttl < t1)
    omega
  have hget1 : storeGet (storePut store payload ttl now id).2 id t1 =
      (.ok payload, storeCleanup (storePut store payload ttl now id).2 t1) := by
    unfold storeGet
    simp only [hkeep1]
    rw [if_neg hne1]
  have hkeep2 : List.lookup id
      (storeCleanup (storeCleanup (storePut store payload ttl now id).2 t1) t2) =
      some ⟨payload, now + max 60 ttl⟩ := by
    apply lookup_filter_keep hkeep1
    simp only [decide_eq_true_eq]
    show ¬(now + max 60 ttl < t2)
    omega
  have hne2 : ¬((⟨payload, now + max 60 ttl⟩ : AnalysisRecord P).expires_at < t2) := by
    show ¬(now + max 60 ttl < t2)
    omega
  constructor
  · rw [hget1]
  · rw [hget1]
    unfold storeGet
    simp only [hkeep2]
    rw [if_neg hne2]

/-- Witness for `analysis_put_get_roundtrip` at a concrete store and times. -/
theorem analysis_put_get_roundtrip_witness :
    ((10 : Int) ≤ 50 ∧ (50 : Int) < 0 + 120) ∧
    ((storeGet (storePut ([] : List (String × AnalysisRecord Nat)) 7 120 0 "tok").2
        "tok" 10).1 = .ok 7 ∧
     (storeGet (storeGet (storePut ([] : List (String × AnalysisRecord Nat)) 7 120 0
        "tok").2 "tok" 10).2 "tok" 50).1 = .ok 7) :=
  ⟨⟨by decide, by decide⟩,
   analysis_put_get_roundtrip [] 7 120 0 "tok" 10 50 (by decide) (by decide)⟩

/-! ### `domain/brick_catalog.py` — `BrickCatalog.normalize`

The supported-shape table `_SUPPORTED` and the normalization that rejects any
identifier not in it with `ValueError(f"Unsupported brick type: {t}")`,
deduplicates, and force-inserts `"1x1"` at the front when missing.  The
Python `ValueError` is the spec's `InvalidShapeRequest`, embedded as the
error constructor `unsupported`. -/

def SUPPORTED : List (String × (Nat × Nat)) :=
  [("1x1", (1, 1)), ("1x2", (2, 1)), ("1x3", (3, 1)), ("1x4", (4, 1)),
   ("1x5", (5, 1)), ("2x2", (2, 2)), ("2x3", (3, 2)), ("2x4", (4, 2)),
   ("2x5", (5, 2))]

inductive CatalogErr where
  | unsupported (t : String)
deriving DecidableEq, Repr

def catalogNormLoop : List String → List String → Except CatalogErr (List String)
  | uniq, [] => .ok (if "1x1" ∈ uniq then uniq else "1x1" :: uniq)
  | uniq, t :: rest =>
    if (SUPPORTED.lookup (strLower (strTrim t))).isNone then .error (.unsupported t)
    else if strLower (strTrim t) ∈ uniq then catalogNormLoop uniq rest
    else catalogNormLoop (uniq ++ [strLower (strTrim t)]) rest

/-- `BrickCatalog.normalize`. -/
def catalog_normalize (types : List String) : Except CatalogErr (List String) :=
  if types = [] then .ok ["1x1"] else catalogNormLoop [] types

theorem catalogNormLoop_error {l : List String}
    (h : ∃ t ∈ l, (SUPPORTED.lookup (strLower (strTrim t))).isNone = true) :
    ∀ uniq, ∃ u, catalogNormLoop uniq l = .error (.unsupported u) := by
  induction l with
  | nil => obtain ⟨t, ht, _⟩ := h; exact absurd ht (List.not_mem_nil t)
  | cons t rest ih =>
    intro uniq
    rw [catalogNormLoop]
    by_cases hbad : (SUPPORTED.lookup (strLower (strTrim t))).isNone = true
    · rw [if_pos hbad]
      exact ⟨t, rfl⟩
    · rw [if_neg hbad]
      have hrest : ∃ t' ∈ rest, (SUPPORTED.lookup (strLower (strTrim t'))).isNone = true := by
        obtain ⟨t', ht', hb'⟩ := h
        rcases List.mem_cons.mp ht' with rfl | hm
        · exact absurd hb' hbad
        · exact ⟨t', hm, hb'⟩
      split
      · exact ih hrest uniq
      · exact ih hrest _

theorem catalogNormLoop_ok {l res : List String} :
    ∀ uniq, uniq.Nodup → catalogNormLoop uniq l = .ok res →
      res.Nodup ∧ "1x1" ∈ res := by
  induction l with
  | nil =>
    intro uniq hnd h
    rw [catalogNormLoop] at h
    obtain rfl : _ = res := by simpa using h
    split
    · rename_i hmem
      exact ⟨hnd, hmem⟩
    · rename_i hmem
      exact ⟨List.nodup_cons.mpr ⟨hmem, hnd⟩, List.mem_cons_self _ _⟩
  | cons t rest ih =>
    intro uniq hnd h
    rw [catalogNormLoop] at h
    split at h
    · exact absurd h (by simp)
    · split at h
      · exact ih uniq hnd h
      · rename_i hmem
        refine ih _ ?_ h
        rw [List.nodup_append]
        exact ⟨hnd, List.nodup_singleton _,
          fun a ha hb => (List.mem_singleton.mp hb) ▸ hmem ∘ (fun hc => hc) <|
            by rw [List.mem_singleton.mp hb] at ha; exact absurd ha hmem⟩

/-- C6.  `BrickCatalog.normalize` fails with `InvalidShapeRequest`
(`ValueError: Unsupported brick type`) whenever the request contains an
identifier whose trimmed, lowercased form is not a supported key — before
any tiling work, `normalize` being a pure function of the request alone —
and every successfully normalized list is deduplicated and contains
`"1x1"`. -/
theorem catalog_normalize_spec (types : List String) :
    ((∃ t ∈ types, (SUPPORTED.lookup (strLower (strTrim t))).isNone = true) →
      ∃ u, catalog_normalize types = .error (.unsupported u)) ∧
    (∀ l, catalog_normalize types = .ok l → l.Nodup ∧ "1x1" ∈ l) := by
  constructor
  · intro h
    unfold catalog_normalize
    split
    · rename_i hempty
      subst hempty
      obtain ⟨t, ht, _⟩ := h
      exact absurd ht (List.not_mem_nil t)
    · exact catalogNormLoop_error h []
  · intro l h
    unfold catalog_normalize at h
    split at h
    · obtain rfl : ["1x1"] = l := by simpa using h
      exact ⟨List.nodup_singleton _, List.mem_singleton.mpr rfl⟩
    · exact catalogNormLoop_ok [] List.Pairwise.nil h

/-! ### `routers/guide.py` data: bricks, bounds, sections

A schema `GuideBrick` restricted to the fields the step pipeline reads:
origin, dimensions parsed from its type, rendering hex and normalized type
(`id`/`z`/`quantity`/display name play no role in sectioning or chunking).
Coordinates are the non-negative grid integers produced by the analyzer. -/

structure GBrick where
  x : Nat
  y : Nat
  w : Nat
  h : Nat
  hex : String
  type : String
deriving DecidableEq, Repr

structure GuideBounds where
  x : Nat
  y : Nat
  w : Nat
  h : Nat
deriving DecidableEq, Repr

structure GuideSection where
  id : String
  name : String
  bounds : GuideBounds
deriving DecidableEq, Repr

/-- `routers/guide._in_bounds`: half-open origin membership. -/
def in_bounds (b : GBrick) (bd : GuideBounds) : Prop :=
  (bd.x ≤ b.x ∧ b.x < bd.x + bd.w) ∧ (bd.y ≤ b.y ∧ b.y < bd.y + bd.h)

instance (b : GBrick) (bd : GuideBounds) : Decidable (in_bounds b bd) := by
  unfold in_bounds; exact inferInstance

/-! ### `services/step_generator.generate_steps_by_rows`

`_sort_key` is `(y, x, w, h)`; `sorted` is Python's stable sort, embedded as
the stable `insertionSort`.  The `rows` dict groups the sorted list by `y`
(each group in list order, i.e. a filter) and `ys = sorted(rows.keys())` is
the ascending list of distinct `y` values.  `range(i, len, n)` slicing is
`chunksOf n`, whose call sites pass the clamped `max 1 rows_per_step` and
`max 16 max_placements_per_step`. -/

def pKey (p : GBrick) : Nat × Nat × Nat × Nat := (p.y, p.x, p.w, p.h)

def quadLe (p q : Nat × Nat × Nat × Nat) : Prop :=
  p.1 < q.1 ∨ (p.1 = q.1 ∧ (p.2.1 < q.2.1 ∨ (p.2.1 = q.2.1 ∧
    (p.2.2.1 < q.2.2.1 ∨ (p.2.2.1 = q.2.2.1 ∧ p.2.2.2 ≤ q.2.2.2)))))

def pLe (p q : GBrick) : Prop := quadLe (pKey p) (pKey q)

instance : DecidableRel quadLe := fun _ _ => by
  unfold quadLe; exact inferInstance

instance : DecidableRel pLe := fun _ _ => by
  unfold pLe; exact inferInstance

/-- Structural engine for `chunksOf`: the fuel bounds the list length, so
recursion on it is structural (and kernel-reducible); each step consumes at
least one element, so `l.length` fuel always suffices. -/
def chunksOfAux {α : Type} (n : Nat) : Nat → List α → List (List α)
  | 0, _ => []
  | _, [] => []
  | fuel + 1, x :: xs => (x :: xs.take (n - 1)) :: chunksOfAux n fuel (xs.drop (n - 1))

/-- Python slicing `l[i:i+n]` for `i in range(0, len(l), n)` (callers pass
`n ≥ 1`). -/
def chunksOf {α : Type} (n : Nat) (l : List α) : List (List α) :=
  chunksOfAux n l.length l

theorem chunksOfAux_flatten {α : Type} (n : Nat) :
    ∀ (fuel : Nat) (l : List α), l.length ≤ fuel →
      (chunksOfAux n fuel l).flatten = l := by
  intro fuel
  induction fuel with
  | zero =>
    intro l hl
    cases l with
    | nil => rfl
    | cons x xs => exact absurd hl (by simp)
  | succ fuel ih =>
    intro l hl
    cases l with
    | nil => rfl
    | cons x xs =>
      rw [chunksOfAux, List.flatten_cons,
        ih (xs.drop (n - 1)) (by rw [List.length_drop]; simp at hl; omega),
        List.cons_append, List.take_append_drop]

theorem chunksOf_flatten {α : Type} (n : Nat) (l : List α) :
    (chunksOf n l).flatten = l :=
  chunksOfAux_flatten n l.length l (Nat.le_refl _)

/-- The sorted working list of the generator. -/
def sortedPlacements (placements : List GBrick) : List GBrick :=
  List.insertionSort pLe placements

/-- `rows[y]`: the sorted list's `y`-group. -/
def rowOf (l : List GBrick) (y : Nat) : List GBrick :=
  l.filter fun p => decide (p.y = y)

/-- `ys = sorted(rows.keys())`. -/
def ysOf (l : List GBrick) : List Nat :=
  List.insertionSort (fun a b => a ≤ b) ((l.map fun p => p.y).dedup)

structure RawStep where
  index : Nat
  title : String
  description : String
  placements : List GBrick
deriving DecidableEq, Repr

/-- The `(y_chunk, part)` pairs in emission order. -/
def stepChunks (placements : List GBrick) (rps mpps : Nat) :
    List (List Nat × List GBrick) :=
  (chunksOf rps (ysOf (sortedPlacements placements))).flatMap fun c =>
    (chunksOf mpps (c.flatMap fun y => rowOf (sortedPlacements placements) y)).map
      fun part => (c, part)

/-- Emit the steps, numbering from `i` (`step_index` starts at 1). -/
def enumStepsFrom (i : Nat) : List (List Nat × List GBrick) → List RawStep
  | [] => []
  | (c, part) :: rest =>
    ⟨i, toString i ++ "단계",
     toString ((c.min?).getD 0) ++ "~" ++ toString ((c.max?).getD 0) ++ "행 배치",
     part⟩ :: enumStepsFrom (i + 1) rest

def generate_steps_by_rows (placements : List GBrick)
    (rows_per_step : Nat) (max_placements_per_step : Nat) : List RawStep :=
  if placements = [] then []
  else enumStepsFrom 1
    (stepChunks placements (max 1 rows_per_step) (max 16 max_placements_per_step))

/-! ### C4: the steps' delta placements reconstruct the input exactly -/

theorem enumStepsFrom_map_placements :
    ∀ (i : Nat) (l : List (List Nat × List GBrick)),
      (enumStepsFrom i l).map RawStep.placements = l.map Prod.snd
  | _, [] => rfl
  | i, (c, part) :: rest => by
    rw [enumStepsFrom, List.map_cons, List.map_cons,
      enumStepsFrom_map_placements (i + 1) rest]

theorem flatten_flatMap {α β : Type} (l : List α) (g : α → List (List β)) :
    (l.flatMap g).flatten = l.flatMap fun a => (g a).flatten := by
  induction l with
  | nil => rfl
  | cons a t ih =>
    rw [List.flatMap_cons, List.flatten_append, ih, List.flatMap_cons]

theorem flatMap_flatten {α β : Type} (ll : List (List α)) (f : α → List β) :
    ll.flatten.flatMap f = ll.flatMap fun c => c.flatMap f := by
  induction ll with
  | nil => rfl
  | cons c t ih =>
    rw [List.flatten_cons, List.flatMap_append, ih, List.flatMap_cons]

theorem sum_map_ite {ys : List Nat} (hnd : ys.Nodup) (b k : Nat) :
    (ys.map fun y => if b = y then k else 0).sum = if b ∈ ys then k else 0 := by
  induction ys with
  | nil => simp
  | cons y t ih =>
    rw [List.nodup_cons] at hnd
    rw [List.map_cons, List.sum_cons, ih hnd.2]
    by_cases hby : b = y
    · subst hby
      rw [if_pos rfl, if_neg hnd.1, if_pos (List.mem_cons_self _ _), Nat.add_zero]
    · rw [if_neg hby]
      by_cases hbt : b ∈ t
      · rw [if_pos hbt, if_pos (List.mem_cons_of_mem _ hbt), Nat.zero_add]
      · rw [if_neg hbt, if_neg (by simp [hby, hbt]), Nat.zero_add]

theorem flatMap_rowOf_perm {l : List GBrick} {ys : List Nat} (hnd : ys.Nodup)
    (hmem : ∀ p ∈ l, p.y ∈ ys) :
    (ys.flatMap fun y => rowOf l y).Perm l := by
  rw [List.perm_iff_count]
  intro a
  rw [List.count_flatMap]
  have hterm : ∀ y, List.count a (rowOf l y) = if a.y = y then List.count a l else 0 := by
    intro y
    unfold rowOf
    by_cases hay : a.y = y
    · rw [if_pos hay, List.count_filter (by simpa using hay)]
    · rw [if_neg hay]
      apply List.count_eq_zero_of_not_mem
      intro hcon
      exact hay (by simpa using (List.mem_filter.mp hcon).2)
  have hmapeq : (ys.map fun y => List.count a (rowOf l y)) =
      ys.map fun y => if a.y = y then List.count a l else 0 :=
    List.map_congr_left fun y _ => hterm y
  rw [Function.comp_def]
  rw [hmapeq, sum_map_ite hnd a.y (List.count a l)]
  by_cases hal : a ∈ l
  · rw [if_pos (hmem a hal)]
  · rw [List.count_eq_zero_of_not_mem hal]
    split <;> rfl

theorem generate_steps_perm (placements : List GBrick)
    (rows_per_step max_placements_per_step : Nat) :
    ((generate_steps_by_rows placements rows_per_step
        max_placements_per_step).map RawStep.placements).flatten.Perm placements := by
  unfold generate_steps_by_rows
  split
  · rename_i hempty
    subst hempty
    rfl
  · rw [enumStepsFrom_map_placements]
    unfold stepChunks
    rw [List.map_flatMap]
    have hsnd : ∀ (c : List Nat) (L : List (List GBrick)),
        (L.map fun part => (c, part)).map Prod.snd = L := by
      intro c L
      rw [List.map_map]
      have hid : (Prod.snd ∘ fun part : List GBrick => (c, part)) = id := rfl
      rw [hid, List.map_id]
    have hrw : ∀ c : List Nat,
        ((chunksOf (max 16 max_placements_per_step)
            (c.flatMap fun y => rowOf (sortedPlacements placements) y)).map
          fun part => (c, part)).map Prod.snd =
        chunksOf (max 16 max_placements_per_step)
            (c.flatMap fun y => rowOf (sortedPlacements placements) y) :=
      fun c => hsnd c _
    rw [List.flatMap_congr fun c _ => hrw c]
    rw [flatten_flatMap]
    rw [List.flatMap_congr fun c _ => chunksOf_flatten _ _]
    rw [← flatMap_flatten, chunksOf_flatten]
    have hnd : (ysOf (sortedPlacements placements)).Nodup := by
      unfold ysOf
      exact ((List.perm_insertionSort _ _).nodup_iff).mpr
        (List.nodup_dedup _)
    have hmem : ∀ p ∈ sortedPlacements placements,
        p.y ∈ ysOf (sortedPlacements placements) := by
      intro p hp
      unfold ysOf
      rw [(List.perm_insertionSort _ _).mem_iff, List.mem_dedup]
      exact List.mem_map_of_mem _ hp
    exact (flatMap_rowOf_perm hnd hmem).trans
      (List.perm_insertionSort pLe placements)

/-- C4.  For every section and chunking parameters, the concatenation of the
delta placement lists of all steps `generate_steps_by_rows` produces for that
section's placements is a permutation of (the multiset equal of) those
placements: nothing is duplicated or dropped. -/
theorem steps_delta_reconstruction (bricks : List GBrick) (sec : GuideSection)
    (rows_per_step max_placements_per_step : Nat) :
    ((generate_steps_by_rows (bricks.filter fun b => decide (in_bounds b sec.bounds))
        rows_per_step max_placements_per_step).map
      RawStep.placements).flatten.Perm
      (bricks.filter fun b => decide (in_bounds b sec.bounds)) :=
  generate_steps_perm _ _ _

/-! ### `routers/guide._make_sections`

`single` is the whole grid, `quadrants` splits at the midpoints keeping only
non-degenerate quadrants, and any other mode (the schema's `rows`) emits
bands of `max 1 rows_per_section` rows, the last truncated.  The `while`
loop advances `y` by `rows_per_section` after clamping, embedded with the
clamp applied at each use (the same value Python computes once). -/

/-- Structural engine for the `rows` mode `while` loop: the fuel bounds the
remaining rows `height - y`; each iteration advances `y` by `max 1 rps ≥ 1`,
so `height - y` fuel always suffices (and the recursion is kernel-reducible). -/
def rowsSectionsAux (width height rps : Nat) : Nat → Nat → Nat → List GuideSection
  | 0, _, _ => []
  | fuel + 1, y, idx =>
    if y < height then
      ⟨"S" ++ toString idx,
       toString idx ++ "섹션 (" ++ toString (y + 1) ++ "~" ++
         toString (y + min (max 1 rps) (height - y)) ++ "행)",
       ⟨0, y, width, min (max 1 rps) (height - y)⟩⟩ ::
      rowsSectionsAux width height rps fuel (y + max 1 rps) (idx + 1)
    else []

def rowsSections (width height rps y idx : Nat) : List GuideSection :=
  rowsSectionsAux width height rps (height - y) y idx

def make_sections (width height : Nat) (mode : String) (rows_per_section : Nat) :
    List GuideSection :=
  if mode = "single" then
    [⟨"S1", "전체", ⟨0, 0, width, height⟩⟩]
  else if mode = "quadrants" then
    ([⟨"S1", "좌상 섹션", ⟨0, 0, width / 2, height / 2⟩⟩,
      ⟨"S2", "우상 섹션", ⟨width / 2, 0, width - width / 2, height / 2⟩⟩,
      ⟨"S3", "좌하 섹션", ⟨0, height / 2, width / 2, height - height / 2⟩⟩,
      ⟨"S4", "우하 섹션",
       ⟨width / 2, height / 2, width - width / 2, height - height / 2⟩⟩] :
        List GuideSection).filter
      fun s => decide (0 < s.bounds.w ∧ 0 < s.bounds.h)
  else rowsSections width height rows_per_section 0 1

/-! ### C9: every in-grid origin belongs to exactly one section -/

theorem rowsSectionsAux_start_le (width height rps : Nat) :
    ∀ (fuel y0 idx : Nat), ∀ s ∈ rowsSectionsAux width height rps fuel y0 idx,
      y0 ≤ s.bounds.y := by
  intro fuel
  induction fuel with
  | zero => intro y0 idx s hs; exact absurd hs (List.not_mem_nil s)
  | succ fuel ih =>
    intro y0 idx s hs
    rw [rowsSectionsAux] at hs
    split at hs
    · rcases List.mem_cons.mp hs with rfl | hmem
      · exact Nat.le_refl y0
      · have := ih (y0 + max 1 rps) (idx + 1) s hmem
        omega
    · exact absurd hs (List.not_mem_nil s)

theorem rowsSectionsAux_countP (width height rps : Nat) (b : GBrick)
    (hx : b.x < width) (hy : b.y < height) :
    ∀ (fuel y0 idx : Nat), height - y0 ≤ fuel → y0 ≤ b.y →
      (rowsSectionsAux width height rps fuel y0 idx).countP
        (fun s => decide (in_bounds b s.bounds)) = 1 := by
  intro fuel
  induction fuel with
  | zero =>
    intro y0 idx hfuel hle
    exact absurd hy (by omega)
  | succ fuel ih =>
    intro y0 idx hfuel hle
    have hyh : y0 < height := Nat.lt_of_le_of_lt hle hy
    rw [rowsSectionsAux, if_pos hyh, List.countP_cons]
    have hmax1 : 1 ≤ max 1 rps := le_max_left 1 rps
    by_cases hcov : b.y < y0 + max 1 rps
    · have hhead : in_bounds b ⟨0, y0, width, min (max 1 rps) (height - y0)⟩ := by
        unfold in_bounds
        refine ⟨⟨Nat.zero_le _, ?_⟩, ⟨hle, ?_⟩⟩
        · show b.x < 0 + width
          omega
        · show b.y < y0 + min (max 1 rps) (height - y0)
          omega
      have htail : (rowsSectionsAux width height rps fuel (y0 + max 1 rps)
          (idx + 1)).countP (fun s => decide (in_bounds b s.bounds)) = 0 := by
        rw [List.countP_eq_zero]
        intro s hs
        have hge := rowsSectionsAux_start_le width height rps fuel _ _ s hs
        simp only [decide_eq_true_eq]
        intro hcon
        have := hcon.2.1
        omega
      rw [htail, if_pos (by simpa using hhead)]
    · have hmiss : ¬ in_bounds b ⟨0, y0, width, min (max 1 rps) (height - y0)⟩ := by
        unfold in_bounds
        intro hcon
        have h2 : b.y < y0 + min (max 1 rps) (height - y0) := hcon.2.2
        omega
      rw [if_neg (by simpa using hmiss), Nat.add_zero]
      exact ih (y0 + max 1 rps) (idx + 1) (by omega) (by omega)

theorem quad_term_true {b : GBrick} {qx qy qw qh : Nat}
    (h1 : qx ≤ b.x) (h2 : b.x < qx + qw) (h3 : qy ≤ b.y) (h4 : b.y < qy + qh) :
    (decide (in_bounds b ⟨qx, qy, qw, qh⟩) && decide (0 < qw ∧ 0 < qh)) = true := by
  simp only [Bool.and_eq_true, decide_eq_true_eq]
  exact ⟨⟨⟨h1, h2⟩, ⟨h3, h4⟩⟩, by omega, by omega⟩

theorem quad_term_false_x {b : GBrick} {qx qy qw qh : Nat}
    (h : b.x < qx ∨ qx + qw ≤ b.x) :
    (decide (in_bounds b ⟨qx, qy, qw, qh⟩) && decide (0 < qw ∧ 0 < qh)) = false := by
  simp only [Bool.and_eq_false_iff, decide_eq_false_iff_not]
  left
  intro hcon
  unfold in_bounds at hcon
  have hA : qx ≤ b.x := hcon.1.1
  have hB : b.x < qx + qw := hcon.1.2
  omega

theorem quad_term_false_y {b : GBrick} {qx qy qw qh : Nat}
    (h : b.y < qy ∨ qy + qh ≤ b.y) :
    (decide (in_bounds b ⟨qx, qy, qw, qh⟩) && decide (0 < qw ∧ 0 < qh)) = false := by
  simp only [Bool.and_eq_false_iff, decide_eq_false_iff_not]
  left
  intro hcon
  unfold in_bounds at hcon
  have hA : qy ≤ b.y := hcon.2.1
  have hB : b.y < qy + qh := hcon.2.2
  omega

/-- C9.  For every grid `width, height ≥ 1`, every section mode and every
`rowsPerSection ≥ 1`, a brick whose origin lies inside the grid passes the
half-open `_in_bounds` test for exactly one of the sections returned by
`_make_sections`: the sections partition the grid, so no placement is
duplicated across sections and none is orphaned. -/
theorem make_sections_origin_unique (width height : Nat) (mode : String)
    (rows_per_section : Nat) (b : GBrick)
    (hW : 1 ≤ width) (hH : 1 ≤ height) (hrps : 1 ≤ rows_per_section)
    (hx : b.x < width) (hy : b.y < height) :
    (make_sections width height mode rows_per_section).countP
      (fun s => decide (in_bounds b s.bounds)) = 1 := by
  unfold make_sections
  by_cases hsingle : mode = "single"
  · rw [if_pos hsingle, List.countP_cons, List.countP_nil]
    have hin : in_bounds b ⟨0, 0, width, height⟩ := by
      unfold in_bounds
      refine ⟨⟨Nat.zero_le _, ?_⟩, ⟨Nat.zero_le _, ?_⟩⟩
      · show b.x < 0 + width; omega
      · show b.y < 0 + height; omega
    rw [if_pos (by simpa using hin)]
  · rw [if_neg hsingle]
    by_cases hquad : mode = "quadrants"
    · rw [if_pos hquad]
      rw [List.countP_filter]
      simp only [List.countP_cons, List.countP_nil]
      by_cases h1 : b.x < width / 2 <;> by_cases h2 : b.y < height / 2
      · rw [quad_term_true (Nat.zero_le _) (by omega) (Nat.zero_le _) (by omega),
          quad_term_false_x (Or.inl h1), quad_term_false_y (Or.inl h2),
          quad_term_false_x (Or.inl h1)]
        decide
      · rw [quad_term_false_y (Or.inr (show 0 + height / 2 ≤ b.y by omega)),
          quad_term_false_y (Or.inr (show 0 + height / 2 ≤ b.y by omega)),
          quad_term_true (Nat.zero_le _) (show b.x < 0 + width / 2 by omega)
            (show height / 2 ≤ b.y by omega)
            (show b.y < height / 2 + (height - height / 2) by omega),
          quad_term_false_x (Or.inl h1)]
        decide
      · rw [quad_term_false_x (Or.inr (show 0 + width / 2 ≤ b.x by omega)),
          quad_term_true (show width / 2 ≤ b.x by omega)
            (show b.x < width / 2 + (width - width / 2) by omega)
            (Nat.zero_le _) (show b.y < 0 + height / 2 by omega),
          quad_term_false_x (Or.inr (show 0 + width / 2 ≤ b.x by omega)),
          quad_term_false_y (Or.inl h2)]
        decide
      · rw [quad_term_false_x (Or.inr (show 0 + width / 2 ≤ b.x by omega)),
          quad_term_false_y (Or.inr (show 0 + height / 2 ≤ b.y by omega)),
          quad_term_false_x (Or.inr (show 0 + width / 2 ≤ b.x by omega)),
          quad_term_true (show width / 2 ≤ b.x by omega)
            (show b.x < width / 2 + (width - width / 2) by omega)
            (show height / 2 ≤ b.y by omega)
            (show b.y < height / 2 + (height - height / 2) by omega)]
        decide
    · rw [if_neg hquad]
      exact rowsSectionsAux_countP width height rows_per_section b hx hy
        (height - 0) 0 1 (Nat.le_refl _) (Nat.zero_le _)

/-- Witness for `make_sections_origin_unique`: a 5×4 grid in quadrant mode
and the origin `(3, 1)`. -/
theorem make_sections_origin_unique_witness :
    (1 ≤ 5 ∧ 1 ≤ 4 ∧ 1 ≤ 2 ∧ 3 < 5 ∧ 1 < 4) ∧
    (make_sections 5 4 "quadrants" 2).countP
      (fun s => decide (in_bounds ⟨3, 1, 1, 1, "#000000", "1x1"⟩ s.bounds)) = 1 :=
  ⟨⟨by decide, by decide, by decide, by decide, by decide⟩,
   make_sections_origin_unique 5 4 "quadrants" 2 ⟨3, 1, 1, 1, "#000000", "1x1"⟩
     (by decide) (by decide) (by decide) (by decide) (by decide)⟩

/-! ### `routers/guide.build_steps` — assembling the response's step list

The endpoint loops over the sections, skips those with no bricks, runs the
generator on each section's bricks, and appends one `GuideBuildStep` per raw
step, numbered by a single `step_index` initialized to 1 before the section
loop.  A delta brick is rebuilt from its placement dict by re-normalizing
type/hex and re-deriving the dimensions; on bricks already in schema form
(the only bricks built here) that rebuild is the identity on the embedded
fields, so the delta is the raw step's placements. -/

structure GuideBuildStep where
  id : String
  sectionId : String
  index : Nat
  title : String
  description : String
  bricks : List GBrick
deriving DecidableEq, Repr

/-- The `steps_out.append(...)` / `step_index += 1` body of the inner loop:
the emitted step's id, index and title all use the running `step_index`. -/
def emitStep (sec : GuideSection) (acc2 : List GuideBuildStep × Nat) (s : RawStep) :
    List GuideBuildStep × Nat :=
  (acc2.1 ++ [⟨sec.id ++ "-STEP-" ++ toString acc2.2, sec.id, acc2.2,
    sec.name ++ " · " ++ toString acc2.2 ++ "단계", s.description, s.placements⟩],
   acc2.2 + 1)

/-- The body of the `for sec in sections` loop with its running
`(steps_out, step_index)` state. -/
def buildStepsLoop (all_bricks : List GBrick) (rows_per_step mpps : Nat)
    (sections : List GuideSection) : List GuideBuildStep × Nat :=
  sections.foldl
    (fun acc sec =>
      if all_bricks.filter (fun b => decide (in_bounds b sec.bounds)) = [] then acc
      else
        (generate_steps_by_rows
            (all_bricks.filter fun b => decide (in_bounds b sec.bounds))
            rows_per_step mpps).foldl (emitStep sec) acc)
    ([], 1)

/-- `build_steps`' `steps` output for a stored analysis of `width × height`
with bricks `all_bricks` and the request's chunking parameters. -/
def build_steps_core (all_bricks : List GBrick) (width height : Nat)
    (sectionMode : String) (rowsPerSection rowsPerStep mpps : Nat) :
    List GuideBuildStep :=
  (buildStepsLoop all_bricks rowsPerStep mpps
    (make_sections width height sectionMode rowsPerSection)).1

/-- The claim's numbering discipline: within each section of the response,
step indices are exactly `1, 2, …, k` (numbering restarts per section). -/
def perSectionNumbering (steps : List GuideBuildStep) : Prop :=
  ∀ s ∈ steps,
    ((steps.filter fun t => decide (t.sectionId = s.sectionId)).map
      GuideBuildStep.index) =
    List.range' 1 (steps.filter fun t => decide (t.sectionId = s.sectionId)).length

instance (steps : List GuideBuildStep) : Decidable (perSectionNumbering steps) := by
  unfold perSectionNumbering
  exact inferInstance

/-- C5, counterexample.  Two bricks on a 1×2 grid with `rows` sections of one
row each yield two sections with one step each, numbered 1 and 2: the second
section's only step has index 2 (and id `S2-STEP-2`), not 1, so numbering
does not restart per section. -/
theorem build_steps_numbering_cex :
    ((build_steps_core [⟨0, 0, 1, 1, "#AAAAAA", "1x1"⟩, ⟨0, 1, 1, 1, "#AAAAAA", "1x1"⟩]
        1 2 "rows" 1 1 16).map fun s => (s.sectionId, s.index, s.id)) =
      [("S1", 1, "S1-STEP-1"), ("S2", 2, "S2-STEP-2")] ∧
    ¬ perSectionNumbering
      (build_steps_core [⟨0, 0, 1, 1, "#AAAAAA", "1x1"⟩, ⟨0, 1, 1, 1, "#AAAAAA", "1x1"⟩]
        1 2 "rows" 1 1 16) := by
  constructor
  · rfl
  · decide

/-- The running numbering invariant of `build_steps`: the emitted steps are
numbered `1, 2, …` in order and `step_index` is always the next number. -/
def StepNumInv (acc : List GuideBuildStep × Nat) : Prop :=
  acc.1.map GuideBuildStep.index = List.range' 1 acc.1.length ∧
    acc.2 = acc.1.length + 1

theorem emitStep_fold_inv (sec : GuideSection) :
    ∀ (raw : List RawStep) (acc : List GuideBuildStep × Nat), StepNumInv acc →
      StepNumInv (raw.foldl (emitStep sec) acc) := by
  intro raw
  induction raw with
  | nil => exact fun acc h => h
  | cons s rest ih =>
    intro acc hacc
    rw [List.foldl_cons]
    apply ih
    obtain ⟨hmap, hidx⟩ := hacc
    refine ⟨?_, ?_⟩
    · simp only [emitStep, List.map_append, List.map_cons, List.map_nil,
        List.length_append, List.length_cons, List.length_nil, Nat.zero_add,
        Nat.add_zero, hmap, hidx]
      rw [List.range'_1_concat, Nat.add_comm 1 acc.1.length]
    · simp only [emitStep, List.length_append, List.length_cons, List.length_nil,
        Nat.zero_add, Nat.add_zero, hidx]

theorem buildStepsLoop_inv (all_bricks : List GBrick) (rows_per_step mpps : Nat)
    (sections : List GuideSection) :
    StepNumInv (buildStepsLoop all_bricks rows_per_step mpps sections) := by
  unfold buildStepsLoop
  have hstart : StepNumInv (([], 1) : List GuideBuildStep × Nat) := ⟨rfl, rfl⟩
  generalize hacc : (([], 1) : List GuideBuildStep × Nat) = acc0
  rw [hacc] at hstart
  clear hacc
  induction sections generalizing acc0 with
  | nil => exact hstart
  | cons sec rest ih =>
    rw [List.foldl_cons]
    apply ih
    split
    · exact hstart
    · exact emitStep_fold_inv sec _ acc0 hstart

/-- C5, amended.  The steps returned by `build_steps` are numbered
sequentially `1, 2, …, n` across the whole response in order: the numbering
is one shared sequence over all sections (it does not restart per section),
and the steps form one ordered list. -/
theorem build_steps_sequential (all_bricks : List GBrick) (width height : Nat)
    (sectionMode : String) (rowsPerSection rowsPerStep mpps : Nat) :
    (build_steps_core all_bricks width height sectionMode rowsPerSection
        rowsPerStep mpps).map GuideBuildStep.index =
      List.range' 1 (build_steps_core all_bricks width height sectionMode
        rowsPerSection rowsPerStep mpps).length :=
  (buildStepsLoop_inv all_bricks rowsPerStep mpps
    (make_sections width height sectionMode rowsPerSection)).1

end LdaAi
